import Mathlib

/-!
Verification of the comment-tree normalization and sort/export pipeline of the
reddit-comment-extra repository.

The embedding follows the two source files:
* `src/app/api/reddit/route.ts` — the `RedditComment` / `ParsedComment` shapes
  and `parseComments` (the tree normalizer);
* the client page — the `Comment` shape, `sortComments` (recursive stable sort)
  and `flattenComments` (pre-order flattening into export rows).
-/

namespace RedditExtract

/-- Raw Reddit API node (`RedditComment` in `route.ts`).  The field `kind` is the
discriminator; the nested `data` record is flattened into the constructor.  The
optional reply container `replies?: { data: { children: RedditComment[] } }` is
a single-field wrapper around a wrapper around a list, so it is embedded as
`Option (List RedditComment)` holding the `children` list. -/
inductive RedditComment : Type where
  | mk (kind : String) (id : String) (author : String) (body : String)
       (score : Int) (created_utc : Int)
       (replies : Option (List RedditComment)) : RedditComment

/-- Normalized comment node (`ParsedComment` in `route.ts`): `replies` is always
present (a plain list). -/
inductive ParsedComment : Type where
  | mk (id : String) (author : String) (body : String)
       (score : Int) (created_utc : Int)
       (replies : List ParsedComment) : ParsedComment

def RedditComment.kind : RedditComment → String
  | .mk k _ _ _ _ _ _ => k

def RedditComment.dataId : RedditComment → String
  | .mk _ i _ _ _ _ _ => i

def RedditComment.author : RedditComment → String
  | .mk _ _ a _ _ _ _ => a

def RedditComment.body : RedditComment → String
  | .mk _ _ _ b _ _ _ => b

def RedditComment.score : RedditComment → Int
  | .mk _ _ _ _ s _ _ => s

def RedditComment.created_utc : RedditComment → Int
  | .mk _ _ _ _ _ t _ => t

def RedditComment.replies : RedditComment → Option (List RedditComment)
  | .mk _ _ _ _ _ _ r => r

def ParsedComment.id : ParsedComment → String
  | .mk i _ _ _ _ _ => i

def ParsedComment.author : ParsedComment → String
  | .mk _ a _ _ _ _ => a

def ParsedComment.body : ParsedComment → String
  | .mk _ _ b _ _ _ => b

def ParsedComment.score : ParsedComment → Int
  | .mk _ _ _ s _ _ => s

def ParsedComment.created_utc : ParsedComment → Int
  | .mk _ _ _ _ t _ => t

def ParsedComment.replies : ParsedComment → List ParsedComment
  | .mk _ _ _ _ _ r => r

/-- The filter predicate of `parseComments`:
`comment.kind === 't1' && comment.data.body !== '[deleted]'`. -/
def keepRaw (c : RedditComment) : Bool :=
  c.kind == "t1" && c.body != "[deleted]"

/-- `parseComments` from `route.ts` (lines 38–51): filter the sibling list by
`keepRaw`, then map each kept node to a `ParsedComment`, recursively
normalizing the reply container when present (empty list when absent).  The
filter-then-map of the source is fused into one recursion here; the lemma
`parseComments_eq_filter_map` below recovers the literal filter-then-map
shape. -/
def parseComments : List RedditComment → List ParsedComment
  | [] => []
  | RedditComment.mk kind id author body score created_utc replies :: rest =>
      if keepRaw (RedditComment.mk kind id author body score created_utc replies) then
        ParsedComment.mk id author body score created_utc
          (match replies with
            | some rs => parseComments rs
            | none => []) :: parseComments rest
      else
        parseComments rest
  termination_by cs => sizeOf cs
  decreasing_by
    · simp only [RedditComment.mk.sizeOf_spec, List.cons.sizeOf_spec, Option.some.sizeOf_spec]
      omega
    · simp only [List.cons.sizeOf_spec]
      omega
    · simp only [List.cons.sizeOf_spec]
      omega

/-- The map step of `parseComments` on one kept node. -/
def convertRaw (c : RedditComment) : ParsedComment :=
  ParsedComment.mk c.dataId c.author c.body c.score c.created_utc
    (match c.replies with
      | some rs => parseComments rs
      | none => [])

/-- `parseComments` literally is the source's `filter`-then-`map`. -/
theorem parseComments_eq_filter_map (cs : List RedditComment) :
    parseComments cs = (cs.filter keepRaw).map convertRaw := by
  induction cs with
  | nil => simp [parseComments]
  | cons c rest ih =>
      obtain ⟨k, i, a, b, s, t, r⟩ := c
      by_cases h : keepRaw (RedditComment.mk k i a b s t r)
      · cases r with
        | none =>
            rw [parseComments, if_pos h, List.filter_cons_of_pos h, List.map_cons, ih]
            rfl
        | some rs =>
            rw [parseComments, if_pos h, List.filter_cons_of_pos h, List.map_cons, ih]
            rfl
      · cases r with
        | none => rw [parseComments, if_neg h, List.filter_cons_of_neg h, ih]
        | some rs => rw [parseComments, if_neg h, List.filter_cons_of_neg h, ih]

/-- All nodes of a normalized forest, the roots and every descendant. -/
def allParsed : List ParsedComment → List ParsedComment
  | [] => []
  | ParsedComment.mk i a b s t rs :: rest =>
      ParsedComment.mk i a b s t rs :: (allParsed rs ++ allParsed rest)
  termination_by cs => sizeOf cs
  decreasing_by
    · simp only [ParsedComment.mk.sizeOf_spec, List.cons.sizeOf_spec]
      omega
    · simp only [List.cons.sizeOf_spec]
      omega

/-- No node anywhere in the output of `parseComments` carries the deleted
sentinel as its body. -/
theorem parseComments_no_deleted_body :
    ∀ (cs : List RedditComment), ∀ p ∈ allParsed (parseComments cs),
      p.body ≠ "[deleted]"
  | [] => by simp [parseComments, allParsed]
  | RedditComment.mk k i a b s t (some rs) :: rest => by
      have hrs := parseComments_no_deleted_body rs
      have hrest := parseComments_no_deleted_body rest
      by_cases h : keepRaw (RedditComment.mk k i a b s t (some rs))
      · rw [parseComments, if_pos h]
        have hb : b ≠ "[deleted]" := by
          simp [keepRaw, RedditComment.kind, RedditComment.body] at h
          exact h.2
        intro p hp
        rw [allParsed] at hp
        rcases List.mem_cons.mp hp with hp | hp
        · subst hp
          simpa [ParsedComment.body] using hb
        · rcases List.mem_append.mp hp with hp | hp
          · exact hrs p hp
          · exact hrest p hp
      · rw [parseComments, if_neg h]
        exact hrest
  | RedditComment.mk k i a b s t none :: rest => by
      have hrest := parseComments_no_deleted_body rest
      by_cases h : keepRaw (RedditComment.mk k i a b s t none)
      · rw [parseComments, if_pos h]
        have hb : b ≠ "[deleted]" := by
          simp [keepRaw, RedditComment.kind, RedditComment.body] at h
          exact h.2
        intro p hp
        rw [allParsed] at hp
        rcases List.mem_cons.mp hp with hp | hp
        · subst hp
          simpa [ParsedComment.body] using hb
        · rcases List.mem_append.mp hp with hp | hp
          · simp [allParsed] at hp
          · exact hrest p hp
      · rw [parseComments, if_neg h]
        exact hrest
  termination_by cs => sizeOf cs
  decreasing_by
    · simp only [RedditComment.mk.sizeOf_spec, List.cons.sizeOf_spec, Option.some.sizeOf_spec]
      omega
    · simp only [List.cons.sizeOf_spec]
      omega
    · simp only [List.cons.sizeOf_spec]
      omega

/-- C1: `parseComments` outputs no node whose discriminator was not `"t1"` or
whose body was `"[deleted]"`, and no descendant of such a node: a failing node
is dropped with its whole subtree and its replies are never recursed into (the
result does not depend on its `replies` at all). -/
theorem claim_C1_normalize_filters_subtrees (cs : List RedditComment)
    (kind id author body : String) (score created_utc : Int)
    (replies : Option (List RedditComment)) (rest : List RedditComment)
    (hfail : ¬(kind = "t1" ∧ body ≠ "[deleted]")) :
    (∀ p ∈ allParsed (parseComments cs), p.body ≠ "[deleted]") ∧
    parseComments (RedditComment.mk kind id author body score created_utc replies :: rest)
      = parseComments rest := by
  refine ⟨parseComments_no_deleted_body cs, ?_⟩
  have h : keepRaw (RedditComment.mk kind id author body score created_utc replies) = false := by
    simp only [keepRaw, RedditComment.kind, RedditComment.body,
      Bool.and_eq_false_iff, beq_eq_false_iff_ne, bne_eq_false_iff_eq]
    by_cases hk : kind = "t1"
    · right
      by_contra hb
      exact hfail ⟨hk, hb⟩
    · left
      exact hk
  cases replies with
  | none =>
      rw [parseComments, h]
      simp
  | some rs =>
      rw [parseComments, h]
      simp

/-- Witness for C1 at a concrete input: the node of kind `"more"` is dropped
together with its (nonempty) subtree. -/
theorem claim_C1_normalize_filters_subtrees_witness :
    (∀ p ∈ allParsed (parseComments [RedditComment.mk "t1" "x" "u" "hello" 1 2 none]),
        p.body ≠ "[deleted]") ∧
    parseComments
        (RedditComment.mk "more" "y" "u2" "hi" 0 3
            (some [RedditComment.mk "t1" "z" "u3" "deep" 1 4 none]) ::
          [RedditComment.mk "t1" "x" "u" "hello" 1 2 none])
      = parseComments [RedditComment.mk "t1" "x" "u" "hello" 1 2 none] :=
  claim_C1_normalize_filters_subtrees _ "more" "y" "u2" "hi" 0 3 _ _ (by simp)

/-- Client-side comment shape (`Comment` in the page component): the same
fields as `ParsedComment`, but `replies` is optional (`replies?: Comment[]`). -/
inductive Comment : Type where
  | mk (id : String) (author : String) (body : String)
       (score : Int) (created_utc : Int)
       (replies : Option (List Comment)) : Comment

def Comment.id : Comment → String
  | .mk i _ _ _ _ _ => i

def Comment.author : Comment → String
  | .mk _ a _ _ _ _ => a

def Comment.body : Comment → String
  | .mk _ _ b _ _ _ => b

def Comment.score : Comment → Int
  | .mk _ _ _ s _ _ => s

def Comment.created_utc : Comment → Int
  | .mk _ _ _ _ t _ => t

def Comment.replies : Comment → Option (List Comment)
  | .mk _ _ _ _ _ r => r

/-- A comment's reply list, reading an absent container as empty (the way every
consumer in the page treats it). -/
def Comment.repliesOrEmpty (c : Comment) : List Comment :=
  match c.replies with
  | some rs => rs
  | none => []

/-- `type SortBy = 'time' | 'score'`. -/
inductive SortBy : Type where
  | time
  | score
deriving DecidableEq

/-- `type SortOrder = 'asc' | 'desc'`. -/
inductive SortOrder : Type where
  | asc
  | desc
deriving DecidableEq

/-- The `comparison` value computed inside the comparator of `sortComments`:
`a.created_utc - b.created_utc` for `time`, `a.score - b.score` for `score`. -/
def commentComparison (sortBy : SortBy) (a b : Comment) : Int :=
  match sortBy with
  | .time => a.created_utc - b.created_utc
  | .score => a.score - b.score

/-- The full comparator of `sortComments`:
`sortOrder === 'asc' ? comparison : -comparison`. -/
def commentComparator (sortBy : SortBy) (sortOrder : SortOrder) (a b : Comment) : Int :=
  match sortOrder with
  | .asc => commentComparison sortBy a b
  | .desc => -commentComparison sortBy a b

/-- The ordering relation induced by the comparator: `a` may be placed before
`b` exactly when the comparator is non-positive.  `Array.prototype.sort` is
required by the language specification to be a stable comparison sort, so it is
embedded as Mathlib's stable `List.insertionSort` over this relation. -/
def sortRel (sortBy : SortBy) (sortOrder : SortOrder) (a b : Comment) : Prop :=
  commentComparator sortBy sortOrder a b ≤ 0

instance (k : SortBy) (o : SortOrder) : DecidableRel (sortRel k o) :=
  fun _ _ => Int.decLe _ _

/-- The sort key selected by `sortBy`. -/
def sortKeyVal (sortBy : SortBy) (c : Comment) : Int :=
  match sortBy with
  | .time => c.created_utc
  | .score => c.score

/-- The comparator, rewritten as a difference of signed keys. -/
def signedKey (sortBy : SortBy) (sortOrder : SortOrder) (c : Comment) : Int :=
  match sortOrder with
  | .asc => sortKeyVal sortBy c
  | .desc => -sortKeyVal sortBy c

theorem commentComparator_eq_sub (k : SortBy) (o : SortOrder) (a b : Comment) :
    commentComparator k o a b = signedKey k o a - signedKey k o b := by
  cases k <;> cases o <;>
    simp [commentComparator, commentComparison, signedKey, sortKeyVal] <;> ring

theorem sortRel_iff (k : SortBy) (o : SortOrder) (a b : Comment) :
    sortRel k o a b ↔ signedKey k o a ≤ signedKey k o b := by
  rw [sortRel, commentComparator_eq_sub, sub_nonpos]

instance (k : SortBy) (o : SortOrder) : IsTotal Comment (sortRel k o) :=
  ⟨fun a b => by
    rw [sortRel_iff, sortRel_iff]
    exact le_total _ _⟩

instance (k : SortBy) (o : SortOrder) : IsTrans Comment (sortRel k o) :=
  ⟨fun a b c hab hbc => by
    rw [sortRel_iff] at hab hbc ⊢
    exact le_trans hab hbc⟩

/-- `sortComments` from the page component (lines 314–332): copy the sibling
list, sort it with the comparator (a stable sort, per the ECMAScript
specification of `Array.prototype.sort`), then map over the sorted list,
rebuilding each node with its replies recursively sorted with the same
`(sortBy, sortOrder)` (an absent reply container becomes `[]`). -/
def sortComments (cs : List Comment) (sortBy : SortBy) (sortOrder : SortOrder) :
    List Comment :=
  (List.insertionSort (sortRel sortBy sortOrder) cs).attach.map
    (fun x => match x with
      | ⟨Comment.mk i a b s t (some rs), _⟩ =>
          Comment.mk i a b s t (some (sortComments rs sortBy sortOrder))
      | ⟨Comment.mk i a b s t none, _⟩ =>
          Comment.mk i a b s t (some []))
  termination_by sizeOf cs
  decreasing_by
    rename_i hmem
    have h1 : Comment.mk i a b s t (some rs) ∈ cs :=
      (List.mem_insertionSort _).mp hmem
    have h2 := List.sizeOf_lt_of_mem h1
    simp only [Comment.mk.sizeOf_spec, Option.some.sizeOf_spec] at h2
    omega

/-- The per-node rebuilding step of `sortComments`. -/
def resortNode (sortBy : SortBy) (sortOrder : SortOrder) (c : Comment) : Comment :=
  match c with
  | Comment.mk i a b s t (some rs) =>
      Comment.mk i a b s t (some (sortComments rs sortBy sortOrder))
  | Comment.mk i a b s t none =>
      Comment.mk i a b s t (some [])

/-- `sortComments` is the stable sort followed by the recursive rebuild map. -/
theorem sortComments_eq_map (cs : List Comment) (k : SortBy) (o : SortOrder) :
    sortComments cs k o
      = (List.insertionSort (sortRel k o) cs).map (resortNode k o) := by
  rw [sortComments, List.map_attach]
  refine (List.pmap_congr_left _ ?_).trans
    (List.pmap_eq_map _ (resortNode k o) _ (fun _ _ => trivial))
  intro c _ _ _
  obtain ⟨i, a, b, s, t, r⟩ := c
  cases r <;> rfl

theorem resortNode_id (k : SortBy) (o : SortOrder) (c : Comment) :
    (resortNode k o c).id = c.id := by
  obtain ⟨i, a, b, s, t, r⟩ := c
  cases r <;> rfl

theorem resortNode_author (k : SortBy) (o : SortOrder) (c : Comment) :
    (resortNode k o c).author = c.author := by
  obtain ⟨i, a, b, s, t, r⟩ := c
  cases r <;> rfl

theorem resortNode_body (k : SortBy) (o : SortOrder) (c : Comment) :
    (resortNode k o c).body = c.body := by
  obtain ⟨i, a, b, s, t, r⟩ := c
  cases r <;> rfl

theorem resortNode_score (k : SortBy) (o : SortOrder) (c : Comment) :
    (resortNode k o c).score = c.score := by
  obtain ⟨i, a, b, s, t, r⟩ := c
  cases r <;> rfl

theorem resortNode_created_utc (k : SortBy) (o : SortOrder) (c : Comment) :
    (resortNode k o c).created_utc = c.created_utc := by
  obtain ⟨i, a, b, s, t, r⟩ := c
  cases r <;> rfl

theorem sortComments_nil (k : SortBy) (o : SortOrder) : sortComments [] k o = [] := by
  rw [sortComments]
  rfl

theorem resortNode_repliesOrEmpty (k : SortBy) (o : SortOrder) (c : Comment) :
    (resortNode k o c).repliesOrEmpty = sortComments c.repliesOrEmpty k o := by
  obtain ⟨i, a, b, s, t, r⟩ := c
  cases r with
  | some rs => rfl
  | none =>
      show [] = sortComments [] k o
      rw [sortComments_nil]

theorem sortKeyVal_resortNode (k k' : SortBy) (o' : SortOrder) (c : Comment) :
    sortKeyVal k (resortNode k' o' c) = sortKeyVal k c := by
  cases k <;>
    simp [sortKeyVal, resortNode_created_utc, resortNode_score]

theorem commentComparator_resortNode (k : SortBy) (o : SortOrder)
    (k' : SortBy) (o' : SortOrder) (a b : Comment) :
    commentComparator k o (resortNode k' o' a) (resortNode k' o' b)
      = commentComparator k o a b := by
  cases k <;> cases o <;>
    simp [commentComparator, commentComparison,
      resortNode_created_utc, resortNode_score]

theorem sortRel_resortNode (k : SortBy) (o : SortOrder)
    (k' : SortBy) (o' : SortOrder) (a b : Comment) :
    sortRel k o (resortNode k' o' a) (resortNode k' o' b) ↔ sortRel k o a b := by
  rw [sortRel, sortRel, commentComparator_resortNode]

theorem sizeOf_repliesOrEmpty_lt_of_mem {c : Comment} {cs : List Comment}
    (h : c ∈ cs) : sizeOf c.repliesOrEmpty < sizeOf cs := by
  have hlt := List.sizeOf_lt_of_mem h
  obtain ⟨i, a, b, s, t, r⟩ := c
  cases r with
  | some rs =>
      simp only [Comment.repliesOrEmpty, Comment.replies]
      simp only [Comment.mk.sizeOf_spec, Option.some.sizeOf_spec] at hlt
      omega
  | none =>
      simp only [Comment.repliesOrEmpty, Comment.replies]
      simp only [Comment.mk.sizeOf_spec, Option.none.sizeOf_spec] at hlt
      simp only [List.nil.sizeOf_spec]
      omega

/-- The node ids found at nesting level `d` of a forest (level `0` holds the
ids of the roots), in sibling order left to right. -/
def commentIdsAtDepth : Nat → List Comment → List String
  | 0, cs => cs.map Comment.id
  | d + 1, cs => cs.flatMap (fun c => commentIdsAtDepth d c.repliesOrEmpty)

/-- At every depth, sorting permutes the node ids of that depth and nothing
else. -/
theorem sortComments_perm_idsAtDepth (k : SortBy) (o : SortOrder) :
    ∀ (cs : List Comment) (d : Nat),
      (commentIdsAtDepth d (sortComments cs k o)).Perm (commentIdsAtDepth d cs) := by
  intro cs d
  rw [sortComments_eq_map]
  have hperm : (List.insertionSort (sortRel k o) cs).Perm cs :=
    List.perm_insertionSort _ _
  cases d with
  | zero =>
      simp only [commentIdsAtDepth, List.map_map]
      have hid : Comment.id ∘ resortNode k o = Comment.id :=
        funext (resortNode_id k o)
      rw [hid]
      exact hperm.map _
  | succ d =>
      simp only [commentIdsAtDepth, List.flatMap_map]
      refine List.Perm.trans (hperm.flatMap_right _) ?_
      apply List.Perm.flatMap_left
      intro c hc
      have hrec := sortComments_perm_idsAtDepth k o c.repliesOrEmpty d
      simpa only [Function.comp_apply, resortNode_repliesOrEmpty] using hrec
  termination_by cs _ => sizeOf cs
  decreasing_by
    exact sizeOf_repliesOrEmpty_lt_of_mem hc

/-- C2: `sortComments` preserves parent/child membership exactly: at every
depth, the multiset of node ids of the sorted tree is the same as in the input
tree; only the order within sibling lists may differ. -/
theorem claim_C2_sort_preserves_structure (cs : List Comment)
    (k : SortBy) (o : SortOrder) (d : Nat) :
    (commentIdsAtDepth d (sortComments cs k o)).Perm (commentIdsAtDepth d cs) :=
  sortComments_perm_idsAtDepth k o cs d

theorem signedKey_eq_of_sortKeyVal_eq {k : SortBy} (o : SortOrder) {a b : Comment}
    (h : sortKeyVal k a = sortKeyVal k b) : signedKey k o a = signedKey k o b := by
  cases o <;> simp [signedKey, h]

/-- C3: `sortComments` is stable.  If `a` occurs before `b` in a sibling list
and their selected sort keys are equal, then their (recursively re-sorted)
images occur in the same relative order in the sorted sibling list, for either
order flag. -/
theorem claim_C3_sort_is_stable (k : SortBy) (o : SortOrder) (a b : Comment)
    (cs : List Comment) (hsub : List.Sublist [a, b] cs)
    (hkey : sortKeyVal k a = sortKeyVal k b) :
    List.Sublist [resortNode k o a, resortNode k o b] (sortComments cs k o) := by
  rw [sortComments_eq_map]
  have hr : sortRel k o a b := by
    rw [sortRel_iff]
    exact le_of_eq (signedKey_eq_of_sortKeyVal_eq o hkey)
  have h2 : List.Sublist [a, b] (List.insertionSort (sortRel k o) cs) :=
    List.pair_sublist_insertionSort hr hsub
  simpa using h2.map (resortNode k o)

/-- Witness for C3: two nodes with equal `created_utc` keep their order under a
descending time sort. -/
theorem claim_C3_sort_is_stable_witness :
    List.Sublist
      [resortNode SortBy.time SortOrder.desc (Comment.mk "a" "u1" "x" 1 5 none),
       resortNode SortBy.time SortOrder.desc (Comment.mk "b" "u2" "y" 2 5 none)]
      (sortComments
        [Comment.mk "a" "u1" "x" 1 5 none,
         Comment.mk "c" "u3" "z" 9 3 none,
         Comment.mk "b" "u2" "y" 2 5 none]
        SortBy.time SortOrder.desc) :=
  claim_C3_sort_is_stable SortBy.time SortOrder.desc _ _ _
    (List.Sublist.cons₂ _ (List.Sublist.cons _ (List.Sublist.cons₂ _ List.Sublist.slnil)))
    rfl

theorem sorted_map_resortNode {k : SortBy} {o : SortOrder} {l : List Comment}
    (hl : List.Sorted (sortRel k o) l) :
    List.Sorted (sortRel k o) (l.map (resortNode k o)) :=
  List.Pairwise.map _ (fun a b hab => (sortRel_resortNode k o k o a b).mpr hab) hl

/-- Applying `sortComments` twice with the same `(sortBy, sortOrder)` gives the
same tree as applying it once. -/
theorem sortComments_idem (k : SortBy) (o : SortOrder) :
    ∀ cs : List Comment, sortComments (sortComments cs k o) k o = sortComments cs k o := by
  intro cs
  conv_lhs => rw [sortComments_eq_map (sortComments cs k o) k o]
  rw [sortComments_eq_map cs k o]
  have hsorted : List.Sorted (sortRel k o)
      ((List.insertionSort (sortRel k o) cs).map (resortNode k o)) :=
    sorted_map_resortNode (List.sorted_insertionSort _ _)
  rw [List.Sorted.insertionSort_eq hsorted, List.map_map]
  apply List.map_congr_left
  intro c hc
  obtain ⟨i, a, b, s, t, r⟩ := c
  cases r with
  | some rs =>
      have hrec := sortComments_idem k o rs
      simp only [Function.comp_apply, resortNode]
      rw [hrec]
  | none =>
      simp only [Function.comp_apply, resortNode]
      rw [sortComments_nil]
  termination_by cs => sizeOf cs
  decreasing_by
    have h1 : Comment.mk i a b s t (some rs) ∈ cs :=
      (List.mem_insertionSort _).mp hc
    have h2 := List.sizeOf_lt_of_mem h1
    simp only [Comment.mk.sizeOf_spec, Option.some.sizeOf_spec] at h2
    omega

/-- C4: `sortComments` is idempotent: re-sorting an already sorted tree with
the same key and order returns a structurally equal tree. -/
theorem claim_C4_sort_idempotent (cs : List Comment) (k : SortBy) (o : SortOrder) :
    sortComments (sortComments cs k o) k o = sortComments cs k o :=
  sortComments_idem k o cs

/-- Export row (`ExcelRow` in the page component): level, comment id, author,
content (newlines collapsed), score, timestamp.  The remaining column of the
source row — the locale-formatted publication time,
`new Date(created_utc * 1000).toLocaleString(zh-CN)` — is a pure rendering of
the same `created_utc` value that `timestamp` carries; locale date formatting
is outside this embedding and no claim concerns it. -/
structure ExcelRow where
  level : Nat
  commentId : String
  author : String
  content : String
  score : Int
  timestamp : Int

/-- `body.replace(/\n/g, ' ')`: every newline character becomes one space.
The pattern and the replacement are single characters, so the global regex
replacement is exactly a character map. -/
def replaceNewlines (s : String) : String :=
  String.mk (s.data.map (fun ch => if ch = '\n' then ' ' else ch))

/-- The row pushed by `flattenComments` for one comment at a given depth. -/
def mkExcelRow (c : Comment) (depth : Nat) : ExcelRow :=
  { level := depth
    commentId := c.id
    author := c.author
    content := replaceNewlines c.body
    score := c.score
    timestamp := c.created_utc }

/-- `flattenComments` from the page component (lines 340–360): for each sibling
push its row at `depth`, then, when the reply list is present and non-empty,
splice in the recursively flattened replies at `depth + 1`, then continue with
the next sibling. -/
def flattenComments (cs : List Comment) (depth : Nat) : List ExcelRow :=
  match cs with
  | [] => []
  | Comment.mk i a b s t r :: rest =>
      (mkExcelRow (Comment.mk i a b s t r) depth ::
        (match r with
          | some rs => if rs.length > 0 then flattenComments rs (depth + 1) else []
          | none => [])) ++ flattenComments rest depth
  termination_by sizeOf cs
  decreasing_by
    · simp only [Comment.mk.sizeOf_spec, List.cons.sizeOf_spec, Option.some.sizeOf_spec]
      omega
    · simp only [List.cons.sizeOf_spec]
      omega

/-- Pre-order row emission in the words of the spec (§4.2 Contract B): emit the
current node as a row at `depth`, then recursively emit its replies at
`depth + 1`, before moving to the next sibling. -/
def specPreorderRows : List Comment → Nat → List ExcelRow
  | [], _ => []
  | Comment.mk i a b s t r :: rest, depth =>
      mkExcelRow (Comment.mk i a b s t r) depth ::
        (specPreorderRows (match r with | some rs => rs | none => []) (depth + 1)
          ++ specPreorderRows rest depth)
  termination_by cs _ => sizeOf cs
  decreasing_by
    · cases r with
      | some rs =>
          simp only [Comment.mk.sizeOf_spec, List.cons.sizeOf_spec, Option.some.sizeOf_spec]
          omega
      | none =>
          simp only [Comment.mk.sizeOf_spec, List.cons.sizeOf_spec, Option.none.sizeOf_spec,
            List.nil.sizeOf_spec]
          omega
    · simp only [List.cons.sizeOf_spec]
      omega

/-- Total number of nodes in a comment forest. -/
def totalCommentCount : List Comment → Nat
  | [] => 0
  | Comment.mk _ _ _ _ _ r :: rest =>
      1 + totalCommentCount (match r with | some rs => rs | none => [])
        + totalCommentCount rest
  termination_by cs => sizeOf cs
  decreasing_by
    · cases r with
      | some rs =>
          simp only [Comment.mk.sizeOf_spec, List.cons.sizeOf_spec, Option.some.sizeOf_spec]
          omega
      | none =>
          simp only [Comment.mk.sizeOf_spec, List.cons.sizeOf_spec, Option.none.sizeOf_spec,
            List.nil.sizeOf_spec]
          omega
    · simp only [List.cons.sizeOf_spec]
      omega

/-- All nodes of a client-side comment forest, roots and descendants. -/
def allCommentNodes : List Comment → List Comment
  | [] => []
  | Comment.mk i a b s t r :: rest =>
      Comment.mk i a b s t r ::
        (allCommentNodes (match r with | some rs => rs | none => [])
          ++ allCommentNodes rest)
  termination_by cs => sizeOf cs
  decreasing_by
    · cases r with
      | some rs =>
          simp only [Comment.mk.sizeOf_spec, List.cons.sizeOf_spec, Option.some.sizeOf_spec]
          omega
      | none =>
          simp only [Comment.mk.sizeOf_spec, List.cons.sizeOf_spec, Option.none.sizeOf_spec,
            List.nil.sizeOf_spec]
          omega
    · simp only [List.cons.sizeOf_spec]
      omega

theorem commentIdsAtDepth_nil (j : Nat) : commentIdsAtDepth j [] = [] := by
  cases j <;> simp [commentIdsAtDepth]

/-- Every row flattened at starting depth `depth` carries a level of at least
`depth`. -/
theorem flatten_level_ge :
    ∀ (cs : List Comment) (depth : Nat), ∀ row ∈ flattenComments cs depth,
      depth ≤ row.level
  | [], depth => by simp [flattenComments]
  | Comment.mk i a b s t (some rs) :: rest, depth => by
      intro row hrow
      rw [flattenComments] at hrow
      rcases List.mem_append.mp hrow with hrow | hrow
      · rcases List.mem_cons.mp hrow with hrow | hrow
        · subst hrow
          simp [mkExcelRow]
        · by_cases hlen : rs.length > 0
          · have h1 := flatten_level_ge rs (depth + 1) row (by simpa [hlen] using hrow)
            omega
          · simp [hlen] at hrow
      · exact flatten_level_ge rest depth row hrow
  | Comment.mk i a b s t none :: rest, depth => by
      intro row hrow
      rw [flattenComments] at hrow
      rcases List.mem_append.mp hrow with hrow | hrow
      · rcases List.mem_cons.mp hrow with hrow | hrow
        · subst hrow
          simp [mkExcelRow]
        · simp at hrow
      · exact flatten_level_ge rest depth row hrow
  termination_by cs _ => sizeOf cs
  decreasing_by
    · simp only [Comment.mk.sizeOf_spec, List.cons.sizeOf_spec, Option.some.sizeOf_spec]
      omega
    · simp only [List.cons.sizeOf_spec]
      omega
    · simp only [List.cons.sizeOf_spec]
      omega

/-- `flattenComments` is exactly the spec's pre-order row emission (the
non-empty-replies guard of the source is invisible in the result, since
flattening an empty list yields no rows). -/
theorem flattenComments_eq_specPreorderRows :
    ∀ (cs : List Comment) (depth : Nat),
      flattenComments cs depth = specPreorderRows cs depth
  | [], depth => by rw [flattenComments, specPreorderRows]
  | Comment.mk i a b s t (some rs) :: rest, depth => by
      rw [flattenComments, specPreorderRows]
      have hrest := flattenComments_eq_specPreorderRows rest depth
      cases rs with
      | nil => simp [hrest, specPreorderRows]
      | cons c' rs' =>
          have hrs := flattenComments_eq_specPreorderRows (c' :: rs') (depth + 1)
          simp [hrest, hrs]
  | Comment.mk i a b s t none :: rest, depth => by
      rw [flattenComments, specPreorderRows]
      have hrest := flattenComments_eq_specPreorderRows rest depth
      simp [hrest, specPreorderRows]
  termination_by cs _ => sizeOf cs
  decreasing_by
    · simp only [List.cons.sizeOf_spec]
      omega
    · simp only [Comment.mk.sizeOf_spec, List.cons.sizeOf_spec, Option.some.sizeOf_spec,
        List.nil.sizeOf_spec]
      omega
    · simp only [List.cons.sizeOf_spec]
      omega

/-- One row per node: the flattened list has exactly as many rows as the
forest has nodes. -/
theorem flattenComments_length :
    ∀ (cs : List Comment) (depth : Nat),
      (flattenComments cs depth).length = totalCommentCount cs
  | [], depth => by rw [flattenComments, totalCommentCount]; rfl
  | Comment.mk i a b s t (some rs) :: rest, depth => by
      rw [flattenComments, totalCommentCount]
      have hrest := flattenComments_length rest depth
      cases rs with
      | nil =>
          rw [totalCommentCount]
          simp [hrest]
          omega
      | cons c' rs' =>
          have hrs := flattenComments_length (c' :: rs') (depth + 1)
          simp [hrest, hrs]
          omega
  | Comment.mk i a b s t none :: rest, depth => by
      rw [flattenComments, totalCommentCount]
      have hrest := flattenComments_length rest depth
      rw [totalCommentCount]
      simp [hrest]
      omega
  termination_by cs _ => sizeOf cs
  decreasing_by
    · simp only [List.cons.sizeOf_spec]
      omega
    · simp only [Comment.mk.sizeOf_spec, List.cons.sizeOf_spec, Option.some.sizeOf_spec,
        List.nil.sizeOf_spec]
      omega
    · simp only [List.cons.sizeOf_spec]
      omega

/-- C6: the number of export rows equals the total node count of the tree. -/
theorem claim_C6_flatten_row_count (cs : List Comment) (depth : Nat) :
    (flattenComments cs depth).length = totalCommentCount cs :=
  flattenComments_length cs depth

/-- The rows whose level is `depth + j` are exactly the nodes with `j`
ancestors below the roots passed in, in traversal order. -/
theorem flattenComments_filter_level :
    ∀ (cs : List Comment) (depth j : Nat),
      ((flattenComments cs depth).filter (fun row => row.level == depth + j)).map
          (fun row => row.commentId)
        = commentIdsAtDepth j cs
  | [], depth, j => by
      rw [flattenComments]
      simp [commentIdsAtDepth_nil]
  | Comment.mk i a b s t (some rs) :: rest, depth, j => by
      rw [flattenComments]
      have hrest := flattenComments_filter_level rest depth j
      rw [List.cons_append]
      cases j with
      | zero =>
          have hchild :
              ((if rs.length > 0 then flattenComments rs (depth + 1) else []).filter
                (fun row => row.level == depth + 0)) = [] := by
            rw [List.filter_eq_nil_iff]
            intro row hrow
            by_cases hlen : rs.length > 0
            · have := flatten_level_ge rs (depth + 1) row (by simpa [hlen] using hrow)
              simp only [Nat.add_zero, beq_iff_eq]
              omega
            · simp [hlen] at hrow
          rw [List.filter_cons_of_pos (by simp [mkExcelRow]), List.map_cons,
            List.filter_append, hchild, List.nil_append, hrest]
          simp [commentIdsAtDepth, mkExcelRow, Comment.id]
      | succ j' =>
          rw [List.filter_cons_of_neg (by simp [mkExcelRow]), List.filter_append,
            List.map_append, hrest]
          have harith : depth + (j' + 1) = (depth + 1) + j' := by omega
          have hchild :
              (((if rs.length > 0 then flattenComments rs (depth + 1) else []).filter
                  (fun row => row.level == depth + (j' + 1))).map
                (fun row => row.commentId)) = commentIdsAtDepth j' rs := by
            by_cases hlen : rs.length > 0
            · have hrs := flattenComments_filter_level rs (depth + 1) j'
              rw [if_pos hlen, harith]
              exact hrs
            · have hnil : rs = [] := by
                cases rs with
                | nil => rfl
                | cons x xs => simp at hlen
              rw [if_neg hlen, hnil, commentIdsAtDepth_nil]
              rfl
          rw [hchild]
          simp [commentIdsAtDepth, Comment.repliesOrEmpty, Comment.replies]
  | Comment.mk i a b s t none :: rest, depth, j => by
      rw [flattenComments]
      have hrest := flattenComments_filter_level rest depth j
      rw [List.cons_append, List.nil_append]
      cases j with
      | zero =>
          rw [List.filter_cons_of_pos (by simp [mkExcelRow]), List.map_cons, hrest]
          simp [commentIdsAtDepth, mkExcelRow, Comment.id]
      | succ j' =>
          rw [List.filter_cons_of_neg (by simp [mkExcelRow]), hrest]
          simp [commentIdsAtDepth, Comment.repliesOrEmpty, Comment.replies,
            commentIdsAtDepth_nil]
  termination_by cs _ _ => sizeOf cs
  decreasing_by
    · simp only [List.cons.sizeOf_spec]
      omega
    · simp only [Comment.mk.sizeOf_spec, List.cons.sizeOf_spec, Option.some.sizeOf_spec]
      omega
    · simp only [List.cons.sizeOf_spec]
      omega

/-- C5: `flattenComments` is the pre-order traversal — each node's row precedes
the rows of its replies, which are emitted at the next depth before the next
sibling — and a row has level `depth + j` exactly when its node sits `j`
ancestors below the roots passed in. -/
theorem claim_C5_flatten_preorder_depths (cs : List Comment) (depth j : Nat) :
    flattenComments cs depth = specPreorderRows cs depth ∧
    ((flattenComments cs depth).filter (fun row => row.level == depth + j)).map
        (fun row => row.commentId)
      = commentIdsAtDepth j cs :=
  ⟨flattenComments_eq_specPreorderRows cs depth,
   flattenComments_filter_level cs depth j⟩

theorem replaceNewlines_data_getElem (s : String) (n : Nat) :
    (replaceNewlines s).data[n]?
      = (s.data[n]?).map (fun ch => if ch = '\n' then ' ' else ch) := by
  simp [replaceNewlines, List.getElem?_map]

/-- Every flattened row comes from a node of the forest, with id, author,
score and timestamp copied verbatim and the content equal to the node's body
with newlines collapsed. -/
theorem flattenComments_row_source :
    ∀ (cs : List Comment) (depth : Nat) (row : ExcelRow),
      row ∈ flattenComments cs depth →
      ∃ c ∈ allCommentNodes cs,
        row.commentId = c.id ∧ row.author = c.author ∧ row.score = c.score ∧
        row.timestamp = c.created_utc ∧ row.content = replaceNewlines c.body
  | [], depth, row => by simp [flattenComments]
  | Comment.mk i a b s t (some rs) :: rest, depth, row => by
      intro hrow
      rw [flattenComments] at hrow
      rw [allCommentNodes]
      rcases List.mem_append.mp hrow with hrow | hrow
      · rcases List.mem_cons.mp hrow with hrow | hrow
        · subst hrow
          exact ⟨Comment.mk i a b s t (some rs), List.mem_cons_self _ _,
            rfl, rfl, rfl, rfl, rfl⟩
        · by_cases hlen : rs.length > 0
          · obtain ⟨c, hc, hprops⟩ :=
              flattenComments_row_source rs (depth + 1) row (by simpa [hlen] using hrow)
            exact ⟨c, List.mem_cons_of_mem _ (List.mem_append_left _ hc), hprops⟩
          · simp [hlen] at hrow
      · obtain ⟨c, hc, hprops⟩ := flattenComments_row_source rest depth row hrow
        exact ⟨c, List.mem_cons_of_mem _ (List.mem_append_right _ hc), hprops⟩
  | Comment.mk i a b s t none :: rest, depth, row => by
      intro hrow
      rw [flattenComments] at hrow
      rw [allCommentNodes]
      rcases List.mem_append.mp hrow with hrow | hrow
      · rcases List.mem_cons.mp hrow with hrow | hrow
        · subst hrow
          exact ⟨Comment.mk i a b s t none, List.mem_cons_self _ _,
            rfl, rfl, rfl, rfl, rfl⟩
        · simp at hrow
      · obtain ⟨c, hc, hprops⟩ := flattenComments_row_source rest depth row hrow
        exact ⟨c, List.mem_cons_of_mem _ (List.mem_append_right _ hc), hprops⟩
  termination_by cs _ _ => sizeOf cs
  decreasing_by
    · simp only [Comment.mk.sizeOf_spec, List.cons.sizeOf_spec, Option.some.sizeOf_spec]
      omega
    · simp only [List.cons.sizeOf_spec]
      omega
    · simp only [List.cons.sizeOf_spec]
      omega

/-- C7: each export row's content is the node's body with every newline
character replaced by a single space and nothing else changed, and the id and
author fields are copied verbatim. -/
theorem claim_C7_flatten_body_newlines (cs : List Comment) (depth : Nat)
    (row : ExcelRow) (hrow : row ∈ flattenComments cs depth) :
    ∃ c ∈ allCommentNodes cs,
      row.commentId = c.id ∧ row.author = c.author ∧
      ∀ n : Nat, row.content.data[n]?
        = (c.body.data[n]?).map (fun ch => if ch = '\n' then ' ' else ch) := by
  obtain ⟨c, hc, h1, h2, _, _, h5⟩ := flattenComments_row_source cs depth row hrow
  exact ⟨c, hc, h1, h2, fun n => by rw [h5, replaceNewlines_data_getElem]⟩

/-- Witness for C7 at a concrete two-line body. -/
theorem claim_C7_flatten_body_newlines_witness :
    ∃ c ∈ allCommentNodes [Comment.mk "a" "u" "one\ntwo" 3 7 none],
      (mkExcelRow (Comment.mk "a" "u" "one\ntwo" 3 7 none) 0).commentId = c.id ∧
      (mkExcelRow (Comment.mk "a" "u" "one\ntwo" 3 7 none) 0).author = c.author ∧
      ∀ n : Nat, (mkExcelRow (Comment.mk "a" "u" "one\ntwo" 3 7 none) 0).content.data[n]?
        = (c.body.data[n]?).map (fun ch => if ch = '\n' then ' ' else ch) :=
  claim_C7_flatten_body_newlines _ 0 _ (by
    rw [flattenComments]
    simp [flattenComments])

/-- A raw chain of nested comments of depth `n + 1`, every node passing the
filter: node `"node"` holding one reply holding one reply … ending in
`"leaf"`. -/
def rawChain : Nat → RedditComment
  | 0 => RedditComment.mk "t1" "leaf" "u" "text" 1 0 none
  | n + 1 => RedditComment.mk "t1" "node" "u" "text" 1 0 (some [rawChain n])

/-- The normalized image of `rawChain`. -/
def parsedChain : Nat → ParsedComment
  | 0 => ParsedComment.mk "leaf" "u" "text" 1 0 []
  | n + 1 => ParsedComment.mk "node" "u" "text" 1 0 [parsedChain n]

/-- Depth (number of nesting levels) of a normalized forest. -/
def parsedDepth : List ParsedComment → Nat
  | [] => 0
  | c :: rest => max (1 + parsedDepth c.replies) (parsedDepth rest)
  termination_by cs => sizeOf cs
  decreasing_by
    · obtain ⟨i, a, b, s, t, rs⟩ := c
      simp only [ParsedComment.replies, ParsedComment.mk.sizeOf_spec, List.cons.sizeOf_spec]
      omega
    · simp only [List.cons.sizeOf_spec]
      omega

theorem keepRaw_chain_node (i : String) (r : Option (List RedditComment)) :
    keepRaw (RedditComment.mk "t1" i "u" "text" 1 0 r) = true := by
  simp [keepRaw, RedditComment.kind, RedditComment.body]

/-- `parseComments` recurses to the full depth of its input: a chain of depth
`n + 1` normalizes to the full chain of depth `n + 1`, for every `n`. -/
theorem parseComments_unbounded_depth (n : Nat) :
    parseComments [rawChain n] = [parsedChain n]
      ∧ parsedDepth [parsedChain n] = n + 1 := by
  induction n with
  | zero =>
      constructor
      · rw [rawChain, parsedChain, parseComments, if_pos (keepRaw_chain_node "leaf" none)]
        rw [parseComments]
      · have h0 : parsedChain 0 = ParsedComment.mk "leaf" "u" "text" 1 0 [] := by
          rw [parsedChain]
        rw [h0, parsedDepth]
        simp only [ParsedComment.replies]
        simp only [parsedDepth]
        omega
  | succ n ih =>
      constructor
      · rw [rawChain, parsedChain, parseComments,
          if_pos (keepRaw_chain_node "node" (some [rawChain n]))]
        rw [ih.1]
        rw [parseComments]
      · have h1 : parsedChain (n + 1)
            = ParsedComment.mk "node" "u" "text" 1 0 [parsedChain n] := by
          rw [parsedChain]
        rw [parsedDepth, h1]
        simp only [ParsedComment.replies]
        rw [ih.2]
        simp only [parsedDepth]
        omega

/-- Counterexample to C8 as stated: a six-level chain passes through
`parseComments` in full — the output has depth six with a non-empty reply list
at every level above the leaf, so no configurable depth limit cuts the
recursion and no node is kept with emptied replies. -/
theorem claim_C8_counterexample_no_truncation :
    parseComments [rawChain 5] = [parsedChain 5] ∧ parsedDepth [parsedChain 5] = 6 :=
  parseComments_unbounded_depth 5

/-- C8 (amended): `parseComments` imposes no maximum recursion depth: it
normalizes a chain of any depth `n + 1` to the full chain of the same depth,
never truncating a subtree, and its result type carries no truncation count. -/
theorem claim_C8_no_depth_limit (n : Nat) :
    parseComments [rawChain n] = [parsedChain n]
      ∧ parsedDepth [parsedChain n] = n + 1 :=
  parseComments_unbounded_depth n

/-- C10: the deleted-sentinel test is exact string equality. Under the comment
discriminator, any body other than `"[deleted]"` is kept and its subtree
recursed into; a body exactly `"[deleted]"` drops the node and subtree. -/
theorem claim_C10_exact_sentinel_match (kind id author body : String)
    (score created_utc : Int) (replies : Option (List RedditComment))
    (rest : List RedditComment) (hk : kind = "t1") :
    (body ≠ "[deleted]" →
      parseComments (RedditComment.mk kind id author body score created_utc replies :: rest)
        = ParsedComment.mk id author body score created_utc
            (match replies with
              | some rs => parseComments rs
              | none => []) :: parseComments rest) ∧
    (body = "[deleted]" →
      parseComments (RedditComment.mk kind id author body score created_utc replies :: rest)
        = parseComments rest) := by
  constructor
  · intro hb
    have h : keepRaw (RedditComment.mk kind id author body score created_utc replies) = true := by
      simp [keepRaw, RedditComment.kind, RedditComment.body, hk, hb]
    cases replies with
    | some rs => rw [parseComments, if_pos h]
    | none => rw [parseComments, if_pos h]
  · intro hb
    have h : keepRaw (RedditComment.mk kind id author body score created_utc replies) = false := by
      simp [keepRaw, RedditComment.kind, RedditComment.body, hk, hb]
    cases replies with
    | some rs => rw [parseComments, h]; simp
    | none => rw [parseComments, h]; simp

/-- Witness for C10: a body of `" [deleted]"` (leading space) is kept and its
subtree recursed into. -/
theorem claim_C10_exact_sentinel_match_witness :
    parseComments
        [RedditComment.mk "t1" "x" "u" " [deleted]" 0 9
          (some [RedditComment.mk "t1" "y" "v" "kept" 1 10 none])]
      = [ParsedComment.mk "x" "u" " [deleted]" 0 9
          (parseComments [RedditComment.mk "t1" "y" "v" "kept" 1 10 none])] := by
  have h := (claim_C10_exact_sentinel_match "t1" "x" "u" " [deleted]" 0 9
    (some [RedditComment.mk "t1" "y" "v" "kept" 1 10 none]) [] rfl).1 (by decide)
  rw [h, parseComments]

/-- The API response crossing to the client: each `ParsedComment` is serialized
with its `replies` array always present, so the client sees every node with a
present (possibly empty) reply list. -/
def toClientList : List ParsedComment → List Comment
  | [] => []
  | ParsedComment.mk i a b s t rs :: rest =>
      Comment.mk i a b s t (some (toClientList rs)) :: toClientList rest
  termination_by cs => sizeOf cs
  decreasing_by
    · simp only [ParsedComment.mk.sizeOf_spec, List.cons.sizeOf_spec]
      omega
    · simp only [List.cons.sizeOf_spec]
      omega

/-- The raw input of the spec's worked example (§8): node `a` (created 100)
with one child `b` whose body is the deleted sentinel, and node `c`
(created 50). -/
def exampleRaw : List RedditComment :=
  [RedditComment.mk "t1" "a" "u1" "hi" 5 100
      (some [RedditComment.mk "t1" "b" "u2" "[deleted]" 0 101 none]),
   RedditComment.mk "t1" "c" "u3" "yo" 2 50 none]

/-- C9: on the worked example, normalization drops `b` and keeps `a` (with
empty replies) and `c`; sorting by time ascending puts `c` before `a`; and
flattening the sorted tree gives exactly the two depth-0 rows for `c` then
`a`. -/
theorem claim_C9_worked_example :
    parseComments exampleRaw
      = [ParsedComment.mk "a" "u1" "hi" 5 100 [],
         ParsedComment.mk "c" "u3" "yo" 2 50 []] ∧
    sortComments (toClientList (parseComments exampleRaw)) SortBy.time SortOrder.asc
      = [Comment.mk "c" "u3" "yo" 2 50 (some []),
         Comment.mk "a" "u1" "hi" 5 100 (some [])] ∧
    flattenComments
        (sortComments (toClientList (parseComments exampleRaw)) SortBy.time SortOrder.asc) 0
      = [{ level := 0, commentId := "c", author := "u3", content := replaceNewlines "yo",
            score := 2, timestamp := 50 },
         { level := 0, commentId := "a", author := "u1", content := replaceNewlines "hi",
            score := 5, timestamp := 100 }] := by
  have hparse : parseComments exampleRaw
      = [ParsedComment.mk "a" "u1" "hi" 5 100 [],
         ParsedComment.mk "c" "u3" "yo" 2 50 []] := by
    rw [exampleRaw, parseComments]
    rw [if_pos (by simp [keepRaw, RedditComment.kind, RedditComment.body])]
    rw [parseComments]
    rw [if_neg (by simp [keepRaw, RedditComment.kind, RedditComment.body])]
    rw [parseComments]
    rw [parseComments]
    rw [if_pos (by simp [keepRaw, RedditComment.kind, RedditComment.body])]
    rw [parseComments]
  have hclient : toClientList (parseComments exampleRaw)
      = [Comment.mk "a" "u1" "hi" 5 100 (some []),
         Comment.mk "c" "u3" "yo" 2 50 (some [])] := by
    rw [hparse, toClientList, toClientList, toClientList, toClientList]
  have hsort : sortComments (toClientList (parseComments exampleRaw)) SortBy.time SortOrder.asc
      = [Comment.mk "c" "u3" "yo" 2 50 (some []),
         Comment.mk "a" "u1" "hi" 5 100 (some [])] := by
    rw [hclient, sortComments_eq_map]
    have hins : List.insertionSort (sortRel SortBy.time SortOrder.asc)
        [Comment.mk "a" "u1" "hi" 5 100 (some []),
         Comment.mk "c" "u3" "yo" 2 50 (some [])]
        = [Comment.mk "c" "u3" "yo" 2 50 (some []),
           Comment.mk "a" "u1" "hi" 5 100 (some [])] := by
      simp [List.insertionSort, List.orderedInsert, sortRel, commentComparator,
        commentComparison, Comment.created_utc]
    rw [hins]
    simp only [List.map_cons, List.map_nil, resortNode]
    rw [sortComments_nil]
  refine ⟨hparse, hsort, ?_⟩
  rw [hsort]
  rw [flattenComments, flattenComments, flattenComments]
  simp [flattenComments, mkExcelRow, Comment.id, Comment.author, Comment.body,
    Comment.score, Comment.created_utc]

end RedditExtract
